import Mathlib

/-!
# Verification of the chunked `key;value` aggregation pipeline (`src/main.py`)

Shallow embedding of the Python program in `src/main.py`.  Python floats are
modelled as rationals (`ℚ`): all arithmetic performed by the program
(`min`, `max`, `+`, `/`, `math.ceil`) is exact on the inputs the claims are
about, and a rational is finite by construction.  Python byte strings are
`List Nat` (each element a byte value), Python text strings are `List Char`
(Unicode code points) or Lean `String` (for dictionary keys, whose ordering
matches Python's code-point lexicographic string order).  Python dictionaries
are association lists in insertion order with unique keys, exactly the
observable behaviour of `dict`.
-/

namespace Segfault

/-! ## Definitions: the embedded program -/

/-- One aggregate record: the Python list `[min, max, sum, count]` kept per
city by the program (`default_stats` shape, after the first real observation
replaces the `None` placeholders). -/
structure Agg where
  min : ℚ
  max : ℚ
  sum : ℚ
  count : ℕ
  deriving DecidableEq, Repr

/-- An aggregate table: a Python `dict` mapping city to its `Agg`, modelled as
an association list in insertion order. -/
abbrev Table := List (String × Agg)

/-- Lookup of a key in a table, returning the first binding (Python `dict`
access; tables built by the program never hold a key twice). -/
def lookupKey : Table → String → Option Agg
  | [], _ => none
  | (k, a) :: t, q => if k = q then some a else lookupKey t q

/-- Python `city in stats`. -/
def containsKey (t : Table) (q : String) : Bool :=
  (lookupKey t q).isSome

/-- The keys of a table, in insertion order (Python `stats.keys()`). -/
def keysOf (t : Table) : List String :=
  t.map Prod.fst

/-- The table holds each key at most once — the `dict` invariant. -/
def NodupKeys (t : Table) : Prop :=
  (keysOf t).Nodup

instance (t : Table) : Decidable (NodupKeys t) :=
  inferInstanceAs (Decidable (keysOf t).Nodup)

/-- `round_up` from `src/main.py` (lines 14–22):
`math.ceil(x * 10**digits) / 10**digits`, rounding toward positive infinity. -/
def round_up (x : ℚ) (digits : ℕ := 1) : ℚ :=
  let factor : ℚ := 10 ^ digits
  (⌈x * factor⌉ : ℚ) / factor

/-- The in-both-tables combination step of `merge_stats` (line 33):
`[min(m, dm), max(M, dM), s + ds, cnt + dcnt]` with the first argument the
entry already in `stats1` and the second the incoming entry of `stats2`. -/
def combineAgg (a d : Agg) : Agg :=
  ⟨min a.min d.min, max a.max d.max, a.sum + d.sum, a.count + d.count⟩

/-- Replace the binding of key `q` (present exactly once) by its combination
with `d`: the in-place update `stats1[city] = [...]` of `merge_stats`. -/
def updateCombine : Table → String → Agg → Table
  | [], _, _ => []
  | (k, a) :: t, q, d => if k = q then (k, combineAgg a d) :: t
                         else (k, a) :: updateCombine t q d

/-- One iteration of the `for city, data in stats2.items()` loop of
`merge_stats` (lines 29–35). -/
def mergeStep (t : Table) (kv : String × Agg) : Table :=
  if containsKey t kv.1 then updateCombine t kv.1 kv.2 else t ++ [kv]

/-- `merge_stats` from `src/main.py` (lines 24–36): fold the entries of the
second table into the first. -/
def merge_stats (stats1 stats2 : Table) : Table :=
  stats2.foldl mergeStep stats1

/-- Python `str.strip()`: drop leading and trailing whitespace. -/
def stripChars (l : List Char) : List Char :=
  ((l.dropWhile Char.isWhitespace).reverse.dropWhile Char.isWhitespace).reverse

/-- Python `s.split(sep)` for a single-element separator (also
`bytes.split(b"\n")`): split on every occurrence of `sep`; the result is
never empty, and splitting the empty sequence yields `[[]]`. -/
def splitSep {α : Type} [DecidableEq α] (sep : α) : List α → List (List α)
  | [] => [[]]
  | a :: as =>
      if a = sep then [] :: splitSep sep as
      else
        match splitSep sep as with
        | [] => [[a]]
        | h :: t => (a :: h) :: t

/-- Value of a digit character. -/
def digitVal (c : Char) : ℕ := c.toNat - '0'.toNat

/-- Value of a digit string read in base 10. -/
def digitsVal (l : List Char) : ℕ :=
  l.foldl (fun acc c => acc * 10 + digitVal c) 0

/-- Parse an optionally signed, non-empty run of digits filling the whole
input (the exponent of a float literal). -/
def parseSignedInt (l : List Char) : Option ℤ :=
  let (sg, l1) : ℤ × List Char :=
    match l with
    | '+' :: t => (1, t)
    | '-' :: t => (-1, t)
    | _ => (1, l)
  let ds := l1.takeWhile Char.isDigit
  let rest := l1.dropWhile Char.isDigit
  if ds = [] then none
  else if rest = [] then some (sg * (digitsVal ds : ℤ))
  else none

/-- Mantissa and exponent assembled into a rational:
`sign * (intPart + fracDigits/10^len) * 10^exp`. -/
def floatVal (sg : ℤ) (ip : ℕ) (fds : List Char) (ex : ℤ) : ℚ :=
  (sg : ℚ) * ((ip : ℚ) + (digitsVal fds : ℚ) / 10 ^ fds.length) * (10 : ℚ) ^ ex

/-- Python `float(s)` on an already-stripped string, modelling the finite
decimal literals the program's data uses: optional sign, digits with an
optional decimal point (at least one digit overall), optional `e`/`E`
exponent.  The special spellings `inf`/`nan` produce no rational and are
outside the model. -/
def parseFloat (s : List Char) : Option ℚ :=
  let (sg, s1) : ℤ × List Char :=
    match s with
    | '+' :: t => (1, t)
    | '-' :: t => (-1, t)
    | _ => (1, s)
  let ds := s1.takeWhile Char.isDigit
  let s2 := s1.dropWhile Char.isDigit
  match s2 with
  | '.' :: t =>
      let fs := t.takeWhile Char.isDigit
      let s3 := t.dropWhile Char.isDigit
      if ds = [] ∧ fs = [] then none
      else
        match s3 with
        | [] => some (floatVal sg (digitsVal ds) fs 0)
        | 'e' :: u => (parseSignedInt u).map (floatVal sg (digitsVal ds) fs)
        | 'E' :: u => (parseSignedInt u).map (floatVal sg (digitsVal ds) fs)
        | _ => none
  | [] => if ds = [] then none else some (floatVal sg (digitsVal ds) [] 0)
  | 'e' :: u =>
      if ds = [] then none
      else (parseSignedInt u).map (floatVal sg (digitsVal ds) [])
  | 'E' :: u =>
      if ds = [] then none
      else (parseSignedInt u).map (floatVal sg (digitsVal ds) [])
  | _ => none

/-- The per-line parsing of `process_subchunk` (lines 47–58): strip the line,
skip it when empty, split on `";"`, require exactly two fields, strip the key,
and parse the stripped value as a float; any failure skips the line. -/
def parseLine (line : List Char) : Option (String × ℚ) :=
  let l := stripChars line
  if l = [] then none
  else
    match splitSep ';' l with
    | [k, v] => (parseFloat (stripChars v)).map
        (fun q => (String.mk (stripChars k), q))
    | _ => none

/-- Fold one observation `(k, v)` into a table: insert `[v, v, v, 1]` on the
first observation of `k`, otherwise update min/max/sum/count in place
(lines 59–65). -/
def insertObs (t : Table) (k : String) (v : ℚ) : Table :=
  if containsKey t k then
    updateCombine t k ⟨v, v, v, 1⟩
  else
    t ++ [(k, ⟨v, v, v, 1⟩)]

/-- One iteration of the `for line in lines` loop of `process_subchunk`. -/
def psStep (t : Table) (line : List Char) : Table :=
  match parseLine line with
  | none => t
  | some (k, v) => insertObs t k v

/-- `process_subchunk` from `src/main.py` (lines 41–66). -/
def process_subchunk (lines : List (List Char)) : Table :=
  lines.foldl psStep []

/-- The per-key effect of a merge on optional aggregates. -/
def mergeOpt : Option Agg → Option Agg → Option Agg
  | none, d => d
  | some a, none => some a
  | some a, some d => some (combineAgg a d)

/-- A well-formed aggregate: positive count and `min ≤ max`.  The third part
of the source invariant, finiteness of `sum`, holds by construction in this
embedding because `sum : ℚ`. -/
def WFagg (a : Agg) : Prop :=
  0 < a.count ∧ a.min ≤ a.max

/-- Every entry stored in the table is well-formed; in particular no stored
key has `count = 0`. -/
def WF (t : Table) : Prop :=
  ∀ p ∈ t, WFagg p.2

instance : DecidablePred WFagg := fun a =>
  inferInstanceAs (Decidable (0 < a.count ∧ a.min ≤ a.max))

instance (t : Table) : Decidable (WF t) :=
  inferInstanceAs (Decidable (∀ p ∈ t, WFagg p.2))

/-- The Python slicing loop
`[lines[i:i+subchunk_size] for i in range(0, len(lines), subchunk_size)]`
for a positive step: successive `take`/`drop` blocks (empty input gives no
blocks; a zero step cannot arise because the caller passes `max(1, ...)`). -/
def chunkList {α : Type} (l : List α) (size : ℕ) : List (List α) :=
  if l.isEmpty then []
  else if size = 0 then []
  else l.take size :: chunkList (l.drop size) size
termination_by l.length
decreasing_by
  rename_i h1 h2
  have hl : 0 < l.length := by
    cases l with
    | nil => simp at h1
    | cons a as => simp
  have hs : 0 < size := Nat.pos_of_ne_zero h2
  simp only [List.length_drop]
  omega

/-- `process_chunk_lines` from `src/main.py` (lines 68–84): few lines are
processed sequentially, otherwise the lines are sliced into subchunks, each
processed by `process_subchunk`, and the partial tables are merged (the
thread pool returns results in submission order). -/
def process_chunk_lines (lines : List (List Char)) (num_threads : ℕ) : Table :=
  if lines.length < num_threads then process_subchunk lines
  else
    let subchunk_size := Nat.max 1 (lines.length / num_threads)
    let subchunks := chunkList lines subchunk_size
    (subchunks.map process_subchunk).foldl merge_stats []

/-- The (min, max, count) view of an optional aggregate: the components the
merge algebra determines exactly, independent of summation order. -/
def mmc (x : Option Agg) : Option (ℚ × ℚ × ℕ) :=
  x.map (fun a => (a.min, a.max, a.count))

/-- Strict UTF-8 decoding of a byte sequence, as performed by Python's
`bytes.decode("utf-8")`: 1–4 byte sequences, continuation bytes in
`0x80..0xBF`, no overlong encodings, no surrogates, code points at most
`0x10FFFF`; any violation makes the whole decode fail (`UnicodeDecodeError`,
i.e. `none`). -/
def utf8Decode : List ℕ → Option (List Char)
  | [] => some []
  | b :: rest =>
      if b < 0x80 then
        (utf8Decode rest).map (fun cs => Char.ofNat b :: cs)
      else if b < 0xC2 then none
      else if b < 0xE0 then
        match rest with
        | c1 :: rest1 =>
            if 0x80 ≤ c1 ∧ c1 < 0xC0 then
              (utf8Decode rest1).map
                (fun cs => Char.ofNat ((b - 0xC0) * 0x40 + (c1 - 0x80)) :: cs)
            else none
        | [] => none
      else if b < 0xF0 then
        match rest with
        | c1 :: c2 :: rest2 =>
            if (if b = 0xE0 then 0xA0 else 0x80) ≤ c1 ∧
                c1 < (if b = 0xED then 0xA0 else 0xC0) ∧
                0x80 ≤ c2 ∧ c2 < 0xC0 then
              (utf8Decode rest2).map
                (fun cs => Char.ofNat ((b - 0xE0) * 0x1000 +
                  (c1 - 0x80) * 0x40 + (c2 - 0x80)) :: cs)
            else none
        | _ => none
      else if b < 0xF5 then
        match rest with
        | c1 :: c2 :: c3 :: rest3 =>
            if (if b = 0xF0 then 0x90 else 0x80) ≤ c1 ∧
                c1 < (if b = 0xF4 then 0x90 else 0xC0) ∧
                0x80 ≤ c2 ∧ c2 < 0xC0 ∧ 0x80 ≤ c3 ∧ c3 < 0xC0 then
              (utf8Decode rest3).map
                (fun cs => Char.ofNat ((b - 0xF0) * 0x40000 +
                  (c1 - 0x80) * 0x1000 + (c2 - 0x80) * 0x40 + (c3 - 0x80)) :: cs)
            else none
        | _ => none
      else none

/-- The successful-worker body of `process_file_chunk` from `src/main.py`
(lines 98–109), given the established memory map: read the byte range
`[start, end)` of the mapped file, split it into raw lines on the newline
byte, decode each line (skipping lines that fail to decode), and hand the
decoded lines to `process_chunk_lines`.  The `mmap.mmap` call itself (line
97) can fail — CPython raises `ValueError` on a zero-byte file — and that
error path is modelled separately by `mmapFile` and
`process_file_chunk_run`. -/
def process_file_chunk (file : List ℕ) (start endPos : ℕ)
    (num_threads : ℕ) : Table :=
  let chunk_data := (file.drop start).take (endPos - start)
  let raw_lines := splitSep 10 chunk_data
  let decoded_lines := raw_lines.filterMap utf8Decode
  process_chunk_lines decoded_lines num_threads

/-- Index (relative) of the first newline byte of a byte list, if any. -/
def firstNl : List ℕ → Option ℕ
  | [] => none
  | b :: bs => if b = 10 then some 0 else (firstNl bs).map (· + 1)

/-- The file position after `f.seek(p); f.readline()`: one past the first
newline byte at or after `p`, or the end of file when no newline remains
(also when `p` is at or past the end, where `readline` returns `b""`). -/
def lineEnd (file : List ℕ) (p : ℕ) : ℕ :=
  match firstNl (file.drop p) with
  | some j => p + j + 1
  | none => file.length

/-- The boundary loop of `get_chunk_boundaries` (lines 122–132): `i` chunks
remaining, next chunk starting at `start`; each chunk's candidate end
`start + chunk_size` is pushed forward to the end of the current line. -/
def gcbAux (file : List ℕ) (chunk_size : ℕ) : ℕ → ℕ → List (ℕ × ℕ)
  | 0, _ => []
  | i + 1, start =>
      let e := lineEnd file (start + chunk_size)
      (start, e) :: gcbAux file chunk_size i e

/-- The final fix-up `boundaries[-1] = (boundaries[-1][0], file_size)`
(lines 133–134). -/
def forceLastEnd (L : ℕ) : List (ℕ × ℕ) → List (ℕ × ℕ)
  | [] => []
  | [(s, _)] => [(s, L)]
  | b :: bs => b :: forceLastEnd L bs

/-- `get_chunk_boundaries` from `src/main.py` (lines 112–135). -/
def get_chunk_boundaries (file : List ℕ) (num_chunks : ℕ) : List (ℕ × ℕ) :=
  forceLastEnd file.length
    (gcbAux file (file.length / num_chunks) num_chunks 0)

/-- The reduction loop of `main` (lines 148–155): one table per boundary from
`process_file_chunk`, merged into the running total.  (`as_completed` hands
back futures in a nondeterministic order; the merge order is modelled as the
submission order — by C2 the merged per-key contents do not depend on it.) -/
def mergedTable (file : List ℕ) (num_processes num_threads : ℕ) : Table :=
  ((get_chunk_boundaries file num_processes).map
    (fun b => process_file_chunk file b.1 b.2 num_threads)).foldl merge_stats []

/-- Rendering of a float that is an integer multiple of `0.1` (every value
`round_up` produces), as Python's `f"{...}"` prints it: optional minus sign,
integer part, decimal point, exactly one fractional digit. -/
def fmtFloat1 (q : ℚ) : String :=
  (if q < 0 then "-" else "") ++ toString ((⌈q * 10⌉).natAbs / 10) ++ "." ++
    toString ((⌈q * 10⌉).natAbs % 10)

/-- One output row (line 162):
`f"{city}={round_up(m,1)}/{round_up(avg,1)}/{round_up(M,1)}\n"` with
`avg = s / cnt`. -/
def renderEntry (k : String) (a : Agg) : String :=
  k ++ "=" ++ fmtFloat1 (round_up a.min) ++ "/" ++
    fmtFloat1 (round_up (a.sum / (a.count : ℚ))) ++ "/" ++
    fmtFloat1 (round_up a.max) ++ "\n"

/-- `sorted(overall_stats.keys())` (line 159): Python sorts strings by code
point, which is exactly Lean's `String` linear order. -/
def sortedKeys (t : Table) : List String :=
  List.insertionSort (· ≤ ·) (keysOf t)

/-- The row printed for key `k` of table `T`: the loop body looks the key up
in the dictionary (always successfully, since `k` comes from `T.keys()`) and
renders the row. -/
def rowFor (T : Table) (k : String) : String :=
  match lookupKey T k with
  | some a => renderEntry k a
  | none => ""

/-- The output lines of `main` (lines 157–162), in emission order. -/
def outputLines (file : List ℕ) (num_processes num_threads : ℕ) : List String :=
  let T := mergedTable file num_processes num_threads
  (sortedKeys T).map (rowFor T)

/-- The full contents written to the output file by `main`, assuming every
worker returns a table. -/
def main_output (file : List ℕ) (num_processes num_threads : ℕ) : String :=
  String.join (outputLines file num_processes num_threads)

/-- `mmap.mmap(f.fileno(), 0, access=mmap.ACCESS_READ)` on the opened input
file (line 97): CPython refuses to map a zero-byte file and raises
`ValueError` (cannot mmap an empty file), modelled as `none`; on a nonempty
file the whole file is mapped. -/
def mmapFile (file : List ℕ) : Option (List ℕ) :=
  if file.isEmpty then none else some file

/-- One worker run of `process_file_chunk` (lines 89–110) with the `mmap`
failure modelled: `none` is the uncaught `ValueError` escaping the worker. -/
def process_file_chunk_run (file : List ℕ) (start endPos num_threads : ℕ) :
    Option Table :=
  (mmapFile file).map
    (fun mm => process_file_chunk mm start endPos num_threads)

/-- `main` with worker failures propagated (lines 148–162):
`future.result()` re-raises a worker's exception, nothing catches it, and
the run aborts before the output file is opened — no output is produced
(`none`).  When every worker returns, the file written is `main_output`. -/
def main_run (file : List ℕ) (num_processes num_threads : ℕ) : Option String :=
  let results := (get_chunk_boundaries file num_processes).map
    (fun b => process_file_chunk_run file b.1 b.2 num_threads)
  if results.any Option.isNone then none
  else some (main_output file num_processes num_threads)

/-- Byte list of an ASCII string (used for concrete test files; every
character below `0x80` is its own UTF-8 encoding). -/
def asciiBytes (s : String) : List ℕ :=
  s.toList.map Char.toNat

/-- The start positions described by the boundary loop: each range starts at
the accumulator, and each subsequent range starts at its predecessor's end. -/
def ChainFrom : ℕ → List (ℕ × ℕ) → Prop
  | _, [] => True
  | s, p :: t => p.1 = s ∧ ChainFrom p.2 t

/-- The record a raw byte line contributes: decode it, then parse it; `none`
when either step rejects the line. -/
def lineRecord (bs : List ℕ) : Option (String × ℚ) :=
  (utf8Decode bs).bind parseLine

/-- The valid records of the whole input file: split the file on newline
bytes and keep the lines that decode and parse. -/
def fileRecords (file : List ℕ) : List (String × ℚ) :=
  (splitSep 10 file).filterMap lineRecord

/-- The keys seen in at least one valid record of the file. -/
def validKeys (file : List ℕ) : List String :=
  (fileRecords file).map Prod.fst

/-! ## Theorems -/

theorem mergeOpt_none_right (x : Option Agg) : mergeOpt x none = x := by
  cases x <;> rfl

theorem mergeOpt_assoc (x y z : Option Agg) :
    mergeOpt (mergeOpt x y) z = mergeOpt x (mergeOpt y z) := by
  cases x <;> cases y <;> cases z <;>
    simp [mergeOpt, combineAgg, min_assoc, max_assoc, add_assoc]

theorem lookupKey_cons (k : String) (a : Agg) (t : Table) (q : String) :
    lookupKey ((k, a) :: t) q = if k = q then some a else lookupKey t q := rfl

theorem keysOf_cons (k : String) (a : Agg) (t : Table) :
    keysOf ((k, a) :: t) = k :: keysOf t := rfl

theorem lookupKey_append (t1 t2 : Table) (q : String) :
    lookupKey (t1 ++ t2) q =
      match lookupKey t1 q with
      | some a => some a
      | none => lookupKey t2 q := by
  induction t1 with
  | nil => simp [lookupKey]
  | cons p t ih =>
      obtain ⟨k, a⟩ := p
      by_cases hk : k = q <;> simp [lookupKey_cons, hk, ih]

theorem lookupKey_updateCombine (t : Table) (k : String) (d : Agg) (q : String) :
    lookupKey (updateCombine t k d) q =
      if q = k then (lookupKey t q).map (combineAgg · d) else lookupKey t q := by
  induction t with
  | nil => by_cases h : q = k <;> simp [updateCombine, lookupKey, h]
  | cons p t ih =>
      obtain ⟨k', a⟩ := p
      by_cases hk : k' = k
      · subst hk
        by_cases hq : q = k'
        · subst hq
          simp [updateCombine, lookupKey_cons]
        · have h1 : k' ≠ q := fun h => hq h.symm
          simp [updateCombine, lookupKey_cons, hq, h1]
      · by_cases hq : k' = q
        · subst hq
          simp [updateCombine, hk, lookupKey_cons]
        · simp [updateCombine, hk, lookupKey_cons, hq, ih]

theorem containsKey_cons (k : String) (a : Agg) (t : Table) (q : String) :
    containsKey ((k, a) :: t) q = if k = q then true else containsKey t q := by
  by_cases h : k = q <;> simp [containsKey, lookupKey_cons, h]

theorem containsKey_iff (t : Table) (q : String) :
    containsKey t q = true ↔ q ∈ keysOf t := by
  induction t with
  | nil => simp [containsKey, lookupKey, keysOf]
  | cons p t ih =>
      obtain ⟨k, a⟩ := p
      rw [containsKey_cons, keysOf_cons]
      by_cases h : k = q
      · subst h; simp
      · have h' : q ≠ k := fun hh => h hh.symm
        simp [h, h', ih]

theorem lookupKey_eq_none (t : Table) (q : String) :
    lookupKey t q = none ↔ q ∉ keysOf t := by
  have h := containsKey_iff t q
  constructor
  · intro hn hm
    have := h.mpr hm
    simp [containsKey, hn] at this
  · intro hm
    cases hl : lookupKey t q with
    | none => rfl
    | some a =>
        exact absurd (h.mp (by simp [containsKey, hl])) hm

theorem lookupKey_mergeStep (t : Table) (kv : String × Agg) (q : String) :
    lookupKey (mergeStep t kv) q =
      if q = kv.1 then mergeOpt (lookupKey t q) (some kv.2) else lookupKey t q := by
  obtain ⟨k, d⟩ := kv
  by_cases hc : containsKey t k
  · rw [mergeStep, if_pos hc, lookupKey_updateCombine]
    by_cases hq : q = k
    · subst hq
      cases hl : lookupKey t q with
      | none => simp [containsKey, hl] at hc
      | some a => simp [hl, mergeOpt]
    · simp [hq]
  · rw [mergeStep, if_neg hc, lookupKey_append]
    by_cases hq : q = k
    · subst hq
      have hn : lookupKey t q = none := by
        cases hl : lookupKey t q with
        | none => rfl
        | some a => simp [containsKey, hl] at hc
      simp [hn, lookupKey, mergeOpt]
    · have hq' : ¬k = q := fun h => hq h.symm
      cases hl : lookupKey t q with
      | none => simp [hq, hl, lookupKey_cons, hq', lookupKey]
      | some a => simp [hq, hl]

theorem keysOf_updateCombine (t : Table) (k : String) (d : Agg) :
    keysOf (updateCombine t k d) = keysOf t := by
  induction t with
  | nil => rfl
  | cons p t ih =>
      obtain ⟨k', a⟩ := p
      by_cases hk : k' = k
      · subst hk; simp [updateCombine, keysOf_cons]
      · simp [updateCombine, hk, keysOf_cons, ih]

theorem keysOf_mergeStep (t : Table) (kv : String × Agg) :
    keysOf (mergeStep t kv) =
      if containsKey t kv.1 then keysOf t else keysOf t ++ [kv.1] := by
  by_cases hc : containsKey t kv.1
  · simp [mergeStep, hc, keysOf_updateCombine]
  · simp only [mergeStep, hc, if_neg, Bool.false_eq_true, if_false]
    simp [keysOf]

theorem nodupKeys_mergeStep {t : Table} (h : NodupKeys t) (kv : String × Agg) :
    NodupKeys (mergeStep t kv) := by
  unfold NodupKeys at *
  rw [keysOf_mergeStep]
  by_cases hc : containsKey t kv.1
  · simpa [hc] using h
  · have : kv.1 ∉ keysOf t := fun hm => hc ((containsKey_iff t kv.1).mpr hm)
    simp [hc, List.nodup_append, h, this]

theorem nodupKeys_foldl_mergeStep {t : Table} (h : NodupKeys t) (l : List (String × Agg)) :
    NodupKeys (l.foldl mergeStep t) := by
  induction l generalizing t with
  | nil => exact h
  | cons kv l ih => exact ih (nodupKeys_mergeStep h kv)

theorem nodupKeys_merge_stats {a : Table} (h : NodupKeys a) (b : Table) :
    NodupKeys (merge_stats a b) :=
  nodupKeys_foldl_mergeStep h b

/-- Per-key characterisation of `merge_stats`: the merged table looks up to
the `mergeOpt` of the two lookups (the second table must be a genuine `dict`,
i.e. have no duplicate key). -/
theorem lookupKey_merge_stats (a b : Table) (hb : NodupKeys b) (q : String) :
    lookupKey (merge_stats a b) q = mergeOpt (lookupKey a q) (lookupKey b q) := by
  induction b generalizing a with
  | nil => simp [merge_stats, lookupKey, mergeOpt_none_right]
  | cons kv b ih =>
      obtain ⟨k0, d⟩ := kv
      have hb' : NodupKeys b := by
        unfold NodupKeys keysOf at hb ⊢
        exact (List.nodup_cons.mp hb).2
      have hk0 : k0 ∉ keysOf b := by
        unfold NodupKeys keysOf at hb
        exact (List.nodup_cons.mp hb).1
      have : merge_stats a ((k0, d) :: b) = merge_stats (mergeStep a (k0, d)) b := rfl
      rw [this, ih _ hb', lookupKey_mergeStep]
      by_cases hq : q = k0
      · subst hq
        rw [(lookupKey_eq_none b q).mpr hk0, mergeOpt_none_right, if_pos rfl,
          lookupKey_cons, if_pos rfl]
      · have hq' : ¬k0 = q := fun h => hq h.symm
        rw [if_neg hq, lookupKey_cons, if_neg hq']

theorem wfagg_combineAgg {a : Agg} (h : WFagg a) (d : Agg) :
    WFagg (combineAgg a d) := by
  obtain ⟨h1, h2⟩ := h
  refine ⟨?_, ?_⟩
  · simpa [combineAgg] using Or.inl h1
  · exact le_trans (min_le_left _ _) (le_trans h2 (le_max_left _ _))

theorem wf_updateCombine {t : Table} (h : WF t) (k : String) (d : Agg) :
    WF (updateCombine t k d) := by
  induction t with
  | nil => intro p hp; simp [updateCombine] at hp
  | cons p t ih =>
      obtain ⟨k', a⟩ := p
      have ht : WF t := fun p hp => h p (List.mem_cons_of_mem _ hp)
      have ha : WFagg a := h (k', a) (List.mem_cons_self _ _)
      by_cases hk : k' = k
      · intro p hp
        rw [updateCombine, if_pos hk] at hp
        rcases List.mem_cons.mp hp with rfl | hp
        · exact wfagg_combineAgg ha d
        · exact ht p hp
      · intro p hp
        rw [updateCombine, if_neg hk] at hp
        rcases List.mem_cons.mp hp with rfl | hp
        · exact ha
        · exact ih ht p hp

theorem wf_mergeStep {t : Table} (h : WF t) {kv : String × Agg}
    (hkv : WFagg kv.2) : WF (mergeStep t kv) := by
  by_cases hc : containsKey t kv.1
  · rw [mergeStep, if_pos hc]
    exact wf_updateCombine h kv.1 kv.2
  · rw [mergeStep, if_neg hc]
    intro p hp
    rcases List.mem_append.mp hp with hp | hp
    · exact h p hp
    · rcases List.mem_singleton.mp hp with rfl
      exact hkv

theorem wf_foldl_mergeStep {t : Table} (h : WF t) {l : List (String × Agg)}
    (hl : ∀ kv ∈ l, WFagg kv.2) : WF (l.foldl mergeStep t) := by
  induction l generalizing t with
  | nil => exact h
  | cons kv l ih =>
      exact ih (wf_mergeStep h (hl kv (List.mem_cons_self _ _)))
        (fun p hp => hl p (List.mem_cons_of_mem _ hp))

theorem wf_merge_stats {a b : Table} (ha : WF a) (hb : WF b) :
    WF (merge_stats a b) :=
  wf_foldl_mergeStep ha (fun kv hkv => hb kv hkv)

theorem wfagg_single (v : ℚ) : WFagg ⟨v, v, v, 1⟩ :=
  ⟨Nat.one_pos, le_refl v⟩

/-- The first-observation / later-observation update of `process_subchunk`
is exactly the merge step with the singleton aggregate `[v, v, v, 1]`. -/
theorem insertObs_eq_mergeStep (t : Table) (k : String) (v : ℚ) :
    insertObs t k v = mergeStep t (k, ⟨v, v, v, 1⟩) := rfl

theorem wf_psStep {t : Table} (h : WF t) (line : List Char) :
    WF (psStep t line) := by
  cases hp : parseLine line with
  | none => simpa only [psStep, hp] using h
  | some kv =>
      obtain ⟨k, v⟩ := kv
      simp only [psStep, hp, insertObs_eq_mergeStep]
      exact wf_mergeStep h (wfagg_single v)

theorem wf_foldl_psStep {t : Table} (h : WF t) (lines : List (List Char)) :
    WF (lines.foldl psStep t) := by
  induction lines generalizing t with
  | nil => exact h
  | cons l ls ih => exact ih (wf_psStep h l)

theorem wf_process_subchunk (lines : List (List Char)) :
    WF (process_subchunk lines) :=
  wf_foldl_psStep (fun p hp => absurd hp (List.not_mem_nil p)) lines

theorem nodupKeys_nil : NodupKeys [] := List.nodup_nil

theorem nodupKeys_psStep {t : Table} (h : NodupKeys t) (line : List Char) :
    NodupKeys (psStep t line) := by
  cases hp : parseLine line with
  | none => simpa only [psStep, hp] using h
  | some kv =>
      obtain ⟨k, v⟩ := kv
      simp only [psStep, hp, insertObs_eq_mergeStep]
      exact nodupKeys_mergeStep h _

theorem nodupKeys_foldl_psStep {t : Table} (h : NodupKeys t)
    (lines : List (List Char)) : NodupKeys (lines.foldl psStep t) := by
  induction lines generalizing t with
  | nil => exact h
  | cons l ls ih => exact ih (nodupKeys_psStep h l)

theorem nodupKeys_process_subchunk (lines : List (List Char)) :
    NodupKeys (process_subchunk lines) :=
  nodupKeys_foldl_psStep nodupKeys_nil lines

theorem lookupKey_psStep (t : Table) (line : List Char) (q : String) :
    lookupKey (psStep t line) q =
      mergeOpt (lookupKey t q) (lookupKey (psStep [] line) q) := by
  cases hp : parseLine line with
  | none => simp only [psStep, hp]; exact (mergeOpt_none_right _).symm
  | some kv =>
      obtain ⟨k, v⟩ := kv
      simp only [psStep, hp, insertObs_eq_mergeStep]
      rw [lookupKey_mergeStep, lookupKey_mergeStep]
      by_cases hq : q = k
      · simp [hq, lookupKey, mergeOpt]
      · have hq' : ¬k = q := fun h => hq h.symm
        simp [hq, lookupKey, hq', mergeOpt_none_right]

theorem lookupKey_foldl_psStep (lines : List (List Char)) :
    ∀ (t : Table) (q : String),
      lookupKey (lines.foldl psStep t) q =
        mergeOpt (lookupKey t q) (lookupKey (process_subchunk lines) q) := by
  induction lines with
  | nil =>
      intro t q
      simp [process_subchunk, lookupKey, mergeOpt_none_right]
  | cons l ls ih =>
      intro t q
      have h1 : (l :: ls).foldl psStep t = ls.foldl psStep (psStep t l) := rfl
      have h2 : process_subchunk (l :: ls) = ls.foldl psStep (psStep [] l) := rfl
      rw [h1, h2, ih, ih, lookupKey_psStep, mergeOpt_assoc]

/-- Splitting a run of lines anywhere leaves the per-key lookup unchanged:
`process_subchunk` is a list homomorphism into the merge monoid. -/
theorem lookupKey_process_subchunk_append (xs ys : List (List Char)) (q : String) :
    lookupKey (process_subchunk (xs ++ ys)) q =
      mergeOpt (lookupKey (process_subchunk xs) q)
        (lookupKey (process_subchunk ys) q) := by
  rw [process_subchunk, List.foldl_append, lookupKey_foldl_psStep]
  rfl

theorem chunkList_flatten {α : Type} (size : ℕ) (h : 1 ≤ size) :
    ∀ l : List α, (chunkList l size).flatten = l := by
  intro l
  rw [chunkList]
  by_cases h1 : l.isEmpty
  · rw [if_pos h1]
    cases l with
    | nil => rfl
    | cons a as => simp at h1
  · rw [if_neg h1, if_neg (by omega : ¬size = 0), List.flatten_cons,
      chunkList_flatten size h (l.drop size)]
    exact List.take_append_drop _ _
termination_by l => l.length
decreasing_by
  have hl : 0 < l.length := by
    cases l with
    | nil => simp at h1
    | cons a as => simp
  simp only [List.length_drop]
  omega

theorem lookupKey_foldl_merge_psc (ls : List (List (List Char))) :
    ∀ (t : Table) (q : String),
      lookupKey ((ls.map process_subchunk).foldl merge_stats t) q =
        mergeOpt (lookupKey t q) (lookupKey (process_subchunk ls.flatten) q) := by
  induction ls with
  | nil =>
      intro t q
      simp [process_subchunk, lookupKey, mergeOpt_none_right]
  | cons c ls ih =>
      intro t q
      have h1 : ((c :: ls).map process_subchunk).foldl merge_stats t =
          (ls.map process_subchunk).foldl merge_stats
            (merge_stats t (process_subchunk c)) := rfl
      rw [h1, ih, lookupKey_merge_stats _ _ (nodupKeys_process_subchunk c),
        mergeOpt_assoc, List.flatten_cons,
        lookupKey_process_subchunk_append]

/-- The parallel subchunk path computes, per key, exactly what the
sequential fold computes (sums are exact rationals here). -/
theorem lookupKey_process_chunk_lines (lines : List (List Char))
    (num_threads : ℕ) (q : String) :
    lookupKey (process_chunk_lines lines num_threads) q =
      lookupKey (process_subchunk lines) q := by
  rw [process_chunk_lines]
  by_cases h : lines.length < num_threads
  · rw [if_pos h]
  · rw [if_neg h]
    have hs : 1 ≤ Nat.max 1 (lines.length / num_threads) := Nat.le_max_left _ _
    rw [lookupKey_foldl_merge_psc, chunkList_flatten _ hs]
    rfl

theorem nodupKeys_foldl_merge_stats {t : Table} (h : NodupKeys t)
    (ts : List Table) : NodupKeys (ts.foldl merge_stats t) := by
  induction ts generalizing t with
  | nil => exact h
  | cons u ts ih => exact ih (nodupKeys_merge_stats h u)

theorem nodupKeys_process_chunk_lines (lines : List (List Char))
    (num_threads : ℕ) : NodupKeys (process_chunk_lines lines num_threads) := by
  rw [process_chunk_lines]
  by_cases h : lines.length < num_threads
  · rw [if_pos h]; exact nodupKeys_process_subchunk lines
  · rw [if_neg h]
    exact nodupKeys_foldl_merge_stats nodupKeys_nil _

theorem wf_foldl_merge_stats {t : Table} (h : WF t) (ts : List Table)
    (hts : ∀ u ∈ ts, WF u) : WF (ts.foldl merge_stats t) := by
  induction ts generalizing t with
  | nil => exact h
  | cons u ts ih =>
      exact ih (wf_merge_stats h (hts u (List.mem_cons_self _ _)))
        (fun w hw => hts w (List.mem_cons_of_mem _ hw))

theorem wf_process_chunk_lines (lines : List (List Char)) (num_threads : ℕ) :
    WF (process_chunk_lines lines num_threads) := by
  rw [process_chunk_lines]
  by_cases h : lines.length < num_threads
  · rw [if_pos h]; exact wf_process_subchunk lines
  · rw [if_neg h]
    refine wf_foldl_merge_stats (fun p hp => absurd hp (List.not_mem_nil p)) _ ?_
    intro u hu
    rcases List.mem_map.mp hu with ⟨c, _, rfl⟩
    exact wf_process_subchunk c

/-- C3: `round_up` maps `2.341` to `2.4`, `-0.15` to `-0.1` (rounding toward
positive infinity also for negative values, not truncation), fixes `3.0`,
and dominates its argument everywhere. -/
theorem claim_C3 :
    round_up (2.341 : ℚ) = 2.4 ∧ round_up (-0.15 : ℚ) = -0.1 ∧
      round_up (3.0 : ℚ) = 3.0 ∧ ∀ x : ℚ, x ≤ round_up x := by
  have h1 : (⌈(2.341 : ℚ) * 10 ^ 1⌉ : ℤ) = 24 := by
    rw [Int.ceil_eq_iff]
    constructor <;> norm_num
  have h2 : (⌈(-0.15 : ℚ) * 10 ^ 1⌉ : ℤ) = -1 := by
    rw [Int.ceil_eq_iff]
    constructor <;> norm_num
  have h3 : (⌈(3.0 : ℚ) * 10 ^ 1⌉ : ℤ) = 30 := by
    rw [Int.ceil_eq_iff]
    constructor <;> norm_num
  refine ⟨?_, ?_, ?_, ?_⟩
  · show ((⌈(2.341 : ℚ) * 10 ^ 1⌉ : ℚ)) / 10 ^ 1 = 2.4
    rw [h1]
    norm_num
  · show ((⌈(-0.15 : ℚ) * 10 ^ 1⌉ : ℚ)) / 10 ^ 1 = -0.1
    rw [h2]
    norm_num
  · show ((⌈(3.0 : ℚ) * 10 ^ 1⌉ : ℚ)) / 10 ^ 1 = 3.0
    rw [h3]
    norm_num
  · intro x
    show x ≤ ((⌈x * 10 ^ 1⌉ : ℚ)) / 10 ^ 1
    rw [le_div_iff (by norm_num : (0 : ℚ) < 10 ^ 1)]
    exact Int.le_ceil (x * 10 ^ 1)

/-- C2: `merge_stats` takes the union of the key sets, keeps aggregates of
keys present on one side, combines per key with
`{min(a,b), max(a,b), sum+sum, count+count}` for keys present on both, and
its per-key min/max/count are commutative and associative under regrouping
(in this exact-rational embedding the sums agree as well; the theorem states
the min/max/count components the claim names). -/
theorem claim_C2 (a b : Table) (ha : NodupKeys a) (hb : NodupKeys b) :
    (∀ q, containsKey (merge_stats a b) q = (containsKey a q || containsKey b q))
    ∧ (∀ q x, lookupKey a q = some x → lookupKey b q = none →
        lookupKey (merge_stats a b) q = some x)
    ∧ (∀ q y, lookupKey a q = none → lookupKey b q = some y →
        lookupKey (merge_stats a b) q = some y)
    ∧ (∀ q x y, lookupKey a q = some x → lookupKey b q = some y →
        lookupKey (merge_stats a b) q =
          some ⟨min x.min y.min, max x.max y.max, x.sum + y.sum,
            x.count + y.count⟩)
    ∧ (∀ q, mmc (lookupKey (merge_stats a b) q) =
        mmc (lookupKey (merge_stats b a) q))
    ∧ (∀ c, NodupKeys c → ∀ q,
        mmc (lookupKey (merge_stats (merge_stats a b) c) q) =
          mmc (lookupKey (merge_stats a (merge_stats b c)) q)) := by
  have hab := fun q => lookupKey_merge_stats a b hb q
  have hba := fun q => lookupKey_merge_stats b a ha q
  refine ⟨?_, ?_, ?_, ?_, ?_, ?_⟩
  · intro q
    rw [containsKey, containsKey, containsKey, hab q]
    cases lookupKey a q <;> cases lookupKey b q <;> rfl
  · intro q x h1 h2; rw [hab q, h1, h2]; rfl
  · intro q y h1 h2; rw [hab q, h1, h2]; rfl
  · intro q x y h1 h2; rw [hab q, h1, h2]; rfl
  · intro q
    rw [hab q, hba q]
    cases lookupKey a q <;> cases lookupKey b q <;>
      simp [mergeOpt, mmc, combineAgg, min_comm, max_comm, Nat.add_comm]
  · intro c hc q
    rw [lookupKey_merge_stats (merge_stats a b) c hc q,
      lookupKey_merge_stats a (merge_stats b c) (nodupKeys_merge_stats hb c) q,
      hab q, lookupKey_merge_stats b c hc q, mergeOpt_assoc]

theorem claim_C2_witness :
    lookupKey
      (merge_stats [("A", ⟨1, 2, 3, 2⟩)] [("A", ⟨0, 5, 5, 1⟩)]) "A" =
      some ⟨0, 5, 8, 3⟩ := by
  have h := (claim_C2 [("A", ⟨1, 2, 3, 2⟩)] [("A", ⟨0, 5, 5, 1⟩)]
    (by decide) (by decide)).2.2.2.1 "A" ⟨1, 2, 3, 2⟩ ⟨0, 5, 5, 1⟩
    (by simp [lookupKey]) (by simp [lookupKey])
  rw [h]
  norm_num [Agg.mk.injEq, min_def, max_def]

/-- C5: every table the pipeline produces — a partial table of
`process_subchunk` or `process_chunk_lines`, or a merge of well-formed
tables — stores only keys with `count > 0` and `min ≤ max` (a key with
`count = 0` is never stored: entries exist only after a first valid
observation).  The remaining part of the claim, finiteness of `sum`, is
automatic here because `sum` is a rational number. -/
theorem claim_C5 :
    (∀ lines, WF (process_subchunk lines))
    ∧ (∀ lines num_threads, WF (process_chunk_lines lines num_threads))
    ∧ (∀ a b, WF a → WF b → WF (merge_stats a b)) :=
  ⟨wf_process_subchunk, wf_process_chunk_lines,
    fun _ _ ha hb => wf_merge_stats ha hb⟩

theorem claim_C5_witness :
    WF (merge_stats [("A", ⟨1, 2, 3, 2⟩)] [("B", ⟨1, 1, 1, 1⟩)]) :=
  claim_C5.2.2 _ _
    (by intro p hp
        rcases List.mem_singleton.mp hp with rfl
        exact ⟨Nat.zero_lt_succ _, by norm_num⟩)
    (by intro p hp
        rcases List.mem_singleton.mp hp with rfl
        exact ⟨Nat.zero_lt_succ _, by norm_num⟩)

/-- C9 counterexample: the line `";5.0"` has an empty key field, yet the
parser does *not* skip it — it emits the record `("", 5)` and
`process_subchunk` stores an aggregate under the empty-string key. -/
theorem claim_C9_counterexample :
    parseLine (String.toList ";5.0") = some ("", 5) ∧
      process_subchunk [String.toList ";5.0"] = [("", ⟨5, 5, 5, 1⟩)] := by
  constructor <;>
    simp [process_subchunk, psStep, parseLine, stripChars, splitSep, parseFloat,
      parseSignedInt, floatVal, digitsVal, digitVal, String.toList, insertObs,
      containsKey, lookupKey, updateCombine]

/-- C9 amended: a line that does not split into exactly two fields at the
`";"` delimiter (no delimiter, or several) is skipped, but a line with
exactly one delimiter, an empty or whitespace-only key field and a parseable
value is *not* skipped: the program aggregates it under the empty-string
key. -/
theorem claim_C9_amended :
    (∀ line, (splitSep ';' (stripChars line)).length ≠ 2 → parseLine line = none)
    ∧ process_subchunk [String.toList ";5.0"] = [("", ⟨5, 5, 5, 1⟩)] := by
  constructor
  · intro line h
    rw [parseLine]
    by_cases he : stripChars line = []
    · simp [he]
    · rw [if_neg he]
      cases hsp : splitSep ';' (stripChars line) with
      | nil => rfl
      | cons k t =>
          cases t with
          | nil => rfl
          | cons v t2 =>
              cases t2 with
              | nil => exact absurd (by rw [hsp]; rfl) h
              | cons w t3 => rfl
  · simp [process_subchunk, psStep, parseLine, stripChars, splitSep, parseFloat,
      parseSignedInt, floatVal, digitsVal, digitVal, String.toList, insertObs,
      containsKey, lookupKey, updateCombine]

theorem claim_C9_amended_witness :
    parseLine (String.toList "NoDelimiter") = none :=
  claim_C9_amended.1 (String.toList "NoDelimiter") (by decide)

/-- C10: for any thread count `t ≥ 1`, the parallel subchunk path
`process_chunk_lines` produces a table with the same key set and, per key,
the same min, max and count as the sequential `process_subchunk` (in this
exact-rational embedding even the sums coincide; the theorem states the
components the claim names). -/
theorem claim_C10 (lines : List (List Char)) (num_threads : ℕ)
    (ht : 1 ≤ num_threads) (q : String) :
    containsKey (process_chunk_lines lines num_threads) q =
      containsKey (process_subchunk lines) q
    ∧ mmc (lookupKey (process_chunk_lines lines num_threads) q) =
        mmc (lookupKey (process_subchunk lines) q) := by
  have h := lookupKey_process_chunk_lines lines num_threads q
  exact ⟨by rw [containsKey, containsKey, h], by rw [h]⟩

theorem claim_C10_witness :
    (1 : ℕ) ≤ 2 ∧
      (containsKey
          (process_chunk_lines [String.toList "Oslo;12.3",
            String.toList "Oslo;7.7", String.toList "Bergen;1.0"] 2) "Oslo" =
        containsKey (process_subchunk [String.toList "Oslo;12.3",
          String.toList "Oslo;7.7", String.toList "Bergen;1.0"]) "Oslo"
      ∧ mmc (lookupKey (process_chunk_lines [String.toList "Oslo;12.3",
            String.toList "Oslo;7.7", String.toList "Bergen;1.0"] 2) "Oslo") =
          mmc (lookupKey (process_subchunk [String.toList "Oslo;12.3",
            String.toList "Oslo;7.7", String.toList "Bergen;1.0"]) "Oslo")) :=
  ⟨by decide,
    claim_C10 [String.toList "Oslo;12.3", String.toList "Oslo;7.7",
      String.toList "Bergen;1.0"] 2 (by decide) "Oslo"⟩

theorem gcbAux_nil (cs : ℕ) : ∀ i start, start = 0 → cs = 0 →
    gcbAux [] cs i start = List.replicate i (0, 0) := by
  intro i
  induction i with
  | zero => intro start h1 h2; rfl
  | succ n ih =>
      intro start h1 h2
      subst h1; subst h2
      have he : lineEnd [] (0 + 0) = 0 := rfl
      rw [gcbAux]
      simp only [he]
      rw [ih 0 rfl rfl]
      rfl

theorem forceLastEnd_replicate_zero : ∀ n,
    forceLastEnd 0 (List.replicate n ((0 : ℕ), (0 : ℕ))) = List.replicate n (0, 0) := by
  intro n
  induction n with
  | zero => rfl
  | succ m ih =>
      cases m with
      | zero => rfl
      | succ m' =>
          rw [List.replicate, List.replicate]
          rw [show forceLastEnd 0 ((0,0) :: (0,0) :: List.replicate m' ((0:ℕ),(0:ℕ))) =
            (0,0) :: forceLastEnd 0 ((0,0) :: List.replicate m' ((0:ℕ),(0:ℕ))) from rfl]
          rw [← List.replicate, ih]

/-- C8 counterexample: for the empty file and one chunk, the splitter does
not return the empty sequence — it returns the single degenerate range
`(0, 0)`. -/
theorem claim_C8_counterexample :
    get_chunk_boundaries ([] : List ℕ) 1 ≠ [] := by decide

theorem gcb_nil_eq_replicate (n : ℕ) :
    get_chunk_boundaries ([] : List ℕ) n = List.replicate n (0, 0) := by
  rw [get_chunk_boundaries]
  simp only [List.length_nil, Nat.zero_div]
  rw [gcbAux_nil 0 n 0 rfl rfl]
  exact forceLastEnd_replicate_zero n

/-- C8 amended: for a file of length 0 and any chunk count `n`, the splitter
returns `n` copies of the degenerate empty range `(0, 0)` — a list of `n`
ranges covering no byte, rather than the empty sequence the claim states. -/
theorem claim_C8_amended (n : ℕ) :
    get_chunk_boundaries ([] : List ℕ) n = List.replicate n (0, 0) :=
  gcb_nil_eq_replicate n

/-- C7 (code bug): the spec promises that a zero-byte input file completes
without a fatal error and produces a zero-byte output file, but the code
does not: on an empty file the boundary list is nonempty (`n` copies of
`(0, 0)` for any `n ≥ 1`), so at least one worker is dispatched, and every
worker's `mmap.mmap(f.fileno(), 0)` raises `ValueError` (cannot mmap an
empty file); `future.result()` re-raises it in `main`, nothing catches it,
and the run aborts before the output file is opened.  With the worker's
`mmap` failure modelled, the run on the empty file yields no output at all,
instead of the empty output file the claim states. -/
theorem claim_C7 (num_processes num_threads : ℕ) (hp : 1 ≤ num_processes) :
    main_run [] num_processes num_threads = none := by
  rw [main_run]
  simp only [gcb_nil_eq_replicate, List.map_replicate]
  rw [show process_file_chunk_run [] ((0:ℕ),(0:ℕ)).1 ((0:ℕ),(0:ℕ)).2
      num_threads = none from rfl]
  cases num_processes with
  | zero => exact absurd hp (by omega)
  | succ m =>
      rw [if_pos (by rw [List.replicate]; simp)]

theorem claim_C7_witness : main_run [] 1 1 = none :=
  claim_C7 1 1 (by decide)

theorem chunkList_of_length_le {α : Type} (l : List α) (size : ℕ) (h1 : l ≠ [])
    (h3 : l.length ≤ size) : chunkList l size = [l] := by
  have h0 : 0 < l.length := List.length_pos.mpr h1
  rw [chunkList]
  rw [if_neg (by cases l with
    | nil => exact absurd rfl h1
    | cons a as => simp)]
  rw [if_neg (by omega)]
  rw [List.take_of_length_le h3, List.drop_eq_nil_of_le h3]
  rw [chunkList]
  rfl

/-- Evaluation lemma for the formatter composed with the rounder: once the
scaled ceiling `⌈x * 10⌉ = k` is known, the printed text is determined by
integer arithmetic on `k`. -/
theorem fmtFloat1_round_up (x : ℚ) (k : ℤ) (hk : ⌈x * 10 ^ 1⌉ = k) :
    fmtFloat1 (round_up x) =
      (if k < 0 then "-" else "") ++ toString (k.natAbs / 10) ++ "." ++
        toString (k.natAbs % 10) := by
  have h1 : round_up x = (k : ℚ) / 10 := by
    show ((⌈x * 10 ^ 1⌉ : ℚ)) / 10 ^ 1 = (k : ℚ) / 10
    rw [hk]
    norm_num
  have h2 : ((k : ℚ) / 10) * 10 = (k : ℚ) := by field_simp
  have hiff : ((k : ℚ) / 10 < 0) ↔ (k < 0) := by
    rw [div_lt_iff (by norm_num : (0 : ℚ) < 10)]
    simp
  rw [fmtFloat1, h1, h2, Int.ceil_intCast]
  by_cases hneg : k < 0
  · rw [if_pos hneg, if_pos (hiff.mpr hneg)]
  · rw [if_neg hneg, if_neg (fun hc => hneg (hiff.mp hc))]

/-- C4: a line the parser rejects (no delimiter, more than one delimiter, or
a value field that does not parse as a number) contributes nothing: deleting
it from the line list leaves the aggregate table unchanged; a byte line that
fails UTF-8 decoding is likewise dropped before parsing; and on the spec's
concrete mixed input the whole pipeline emits exactly
`Oslo=7.7/10.0/12.3\n`. -/
theorem claim_C4 :
    (∀ (pre post : List (List Char)) (bad : List Char), parseLine bad = none →
        process_subchunk (pre ++ bad :: post) = process_subchunk (pre ++ post))
    ∧ (∀ (pre post : List (List ℕ)) (bad : List ℕ), utf8Decode bad = none →
        (pre ++ bad :: post).filterMap utf8Decode =
          (pre ++ post).filterMap utf8Decode)
    ∧ main_output (asciiBytes "Oslo;12.3\nBadLine\nOslo;abc\nOslo;7.7\n") 1 1 =
        "Oslo=7.7/10.0/12.3\n" := by
  refine ⟨?_, ?_, ?_⟩
  · intro pre post bad h
    rw [process_subchunk, process_subchunk, List.foldl_append, List.foldl_append,
      List.foldl_cons]
    rw [show psStep (List.foldl psStep [] pre) bad = List.foldl psStep [] pre from
      by simp only [psStep, h]]
  · intro pre post bad h
    simp [List.filterMap_append, List.filterMap_cons, h]
  · have h1 : get_chunk_boundaries
        (asciiBytes "Oslo;12.3\nBadLine\nOslo;abc\nOslo;7.7\n") 1 = [(0, 36)] := by
      decide
    have hcd : ((asciiBytes "Oslo;12.3\nBadLine\nOslo;abc\nOslo;7.7\n").drop 0).take
        (36 - 0) = asciiBytes "Oslo;12.3\nBadLine\nOslo;abc\nOslo;7.7\n" := by
      decide
    have h2 : (splitSep 10
        (asciiBytes "Oslo;12.3\nBadLine\nOslo;abc\nOslo;7.7\n")).filterMap utf8Decode =
        [String.toList "Oslo;12.3", String.toList "BadLine",
          String.toList "Oslo;abc", String.toList "Oslo;7.7", []] := by
      decide
    have hpsc : process_subchunk [String.toList "Oslo;12.3", String.toList "BadLine",
        String.toList "Oslo;abc", String.toList "Oslo;7.7", []] =
        [("Oslo", ⟨77/10, 123/10, 20, 2⟩)] := by
      simp [process_subchunk, psStep, parseLine, stripChars, splitSep, parseFloat,
        parseSignedInt, floatVal, digitsVal, digitVal, String.toList, insertObs,
        containsKey, lookupKey, updateCombine, combineAgg, min_def, max_def]
      norm_num
    have hpcl : process_chunk_lines [String.toList "Oslo;12.3",
        String.toList "BadLine", String.toList "Oslo;abc",
        String.toList "Oslo;7.7", []] 1 =
        [("Oslo", ⟨77/10, 123/10, 20, 2⟩)] := by
      rw [process_chunk_lines, if_neg (by decide)]
      simp only
      rw [chunkList_of_length_le _ _ (by decide) (by decide)]
      rw [List.map_cons, List.map_nil, List.foldl_cons, List.foldl_nil, hpsc]
      rfl
    have hpfc : process_file_chunk
        (asciiBytes "Oslo;12.3\nBadLine\nOslo;abc\nOslo;7.7\n") 0 36 1 =
        [("Oslo", ⟨77/10, 123/10, 20, 2⟩)] := by
      show process_chunk_lines ((splitSep 10
        (((asciiBytes "Oslo;12.3\nBadLine\nOslo;abc\nOslo;7.7\n").drop 0).take
          (36 - 0))).filterMap utf8Decode) 1 = _
      rw [hcd, h2, hpcl]
    have hmt : mergedTable (asciiBytes "Oslo;12.3\nBadLine\nOslo;abc\nOslo;7.7\n") 1 1 =
        [("Oslo", ⟨77/10, 123/10, 20, 2⟩)] := by
      rw [mergedTable, h1, List.map_cons, List.map_nil, List.foldl_cons,
        List.foldl_nil]
      show merge_stats []
        (process_file_chunk (asciiBytes "Oslo;12.3\nBadLine\nOslo;abc\nOslo;7.7\n")
          0 36 1) = _
      rw [hpfc]
      rfl
    have hf1 : fmtFloat1 (round_up ((77:ℚ)/10)) = "7.7" := by
      rw [fmtFloat1_round_up ((77:ℚ)/10) 77
        (by rw [show ((77:ℚ)/10) * 10 ^ 1 = ((77 : ℤ) : ℚ) by norm_num]
            exact Int.ceil_intCast 77)]
      decide
    have hf2 : fmtFloat1 (round_up ((20:ℚ) / (((2:ℕ)) : ℚ))) = "10.0" := by
      rw [fmtFloat1_round_up ((20:ℚ) / (((2:ℕ)) : ℚ)) 100
        (by rw [show ((20:ℚ) / (((2:ℕ)) : ℚ)) * 10 ^ 1 = ((100 : ℤ) : ℚ) by norm_num]
            exact Int.ceil_intCast 100)]
      decide
    have hf3 : fmtFloat1 (round_up ((123:ℚ)/10)) = "12.3" := by
      rw [fmtFloat1_round_up ((123:ℚ)/10) 123
        (by rw [show ((123:ℚ)/10) * 10 ^ 1 = ((123 : ℤ) : ℚ) by norm_num]
            exact Int.ceil_intCast 123)]
      decide
    rw [main_output, outputLines]
    simp only [hmt]
    show String.join [renderEntry "Oslo" ⟨77/10, 123/10, 20, 2⟩] = _
    rw [show renderEntry "Oslo" ⟨77/10, 123/10, 20, 2⟩ =
        "Oslo" ++ "=" ++ fmtFloat1 (round_up ((77:ℚ)/10)) ++ "/" ++
          fmtFloat1 (round_up ((20:ℚ) / (((2:ℕ)) : ℚ))) ++ "/" ++
          fmtFloat1 (round_up ((123:ℚ)/10)) ++ "\n" from rfl]
    rw [hf1, hf2, hf3]
    decide

theorem firstNl_some {l : List ℕ} {j : ℕ} (h : firstNl l = some j) :
    j < l.length ∧ l.get? j = some 10 := by
  induction l generalizing j with
  | nil => simp [firstNl] at h
  | cons b bs ih =>
      by_cases hb : b = 10
      · rw [firstNl, if_pos hb] at h
        cases h
        subst hb
        exact ⟨Nat.zero_lt_succ _, rfl⟩
      · rw [firstNl, if_neg hb] at h
        cases hj : firstNl bs with
        | none => rw [hj] at h; exact absurd h (by simp)
        | some j1 =>
            rw [hj] at h
            have h3 : j1 + 1 = j := by simpa using h
            subst h3
            obtain ⟨h1, h2⟩ := ih hj
            exact ⟨Nat.succ_lt_succ h1, by simpa using h2⟩

theorem lineEnd_le (file : List ℕ) (p : ℕ) : lineEnd file p ≤ file.length := by
  cases hj : firstNl (file.drop p) with
  | none =>
      rw [lineEnd, hj]
  | some j =>
      rw [lineEnd, hj]
      show p + j + 1 ≤ file.length
      have h1 := (firstNl_some hj).1
      rw [List.length_drop] at h1
      omega

theorem lineEnd_cases (file : List ℕ) (p : ℕ) :
    (lineEnd file p = file.length) ∨
      (p < lineEnd file p ∧ 1 ≤ lineEnd file p ∧
        file.get? (lineEnd file p - 1) = some 10) := by
  cases hj : firstNl (file.drop p) with
  | none =>
      left
      rw [lineEnd, hj]
  | some j =>
      right
      obtain ⟨h1, h2⟩ := firstNl_some hj
      rw [List.get?_drop] at h2
      rw [lineEnd, hj]
      show p < p + j + 1 ∧ 1 ≤ p + j + 1 ∧ file.get? (p + j + 1 - 1) = some 10
      refine ⟨by omega, by omega, ?_⟩
      simpa [Nat.add_sub_cancel] using h2

theorem gcbAux_chainFrom (file : List ℕ) (cs : ℕ) :
    ∀ i s, ChainFrom s (gcbAux file cs i s) := by
  intro i
  induction i with
  | zero => intro s; trivial
  | succ m ih => intro s; exact ⟨rfl, ih _⟩

theorem gcbAux_length (file : List ℕ) (cs : ℕ) :
    ∀ i s, (gcbAux file cs i s).length = i := by
  intro i
  induction i with
  | zero => intro s; rfl
  | succ m ih => intro s; simp [gcbAux, ih]

theorem gcbAux_bounds (file : List ℕ) (cs : ℕ) :
    ∀ i s, s ≤ file.length →
      ∀ p ∈ gcbAux file cs i s, p.1 ≤ p.2 ∧ p.2 ≤ file.length := by
  intro i
  induction i with
  | zero => intro s _ p hp; simp [gcbAux] at hp
  | succ m ih =>
      intro s hs p hp
      rw [gcbAux] at hp
      rcases List.mem_cons.mp hp with rfl | hp
      · refine ⟨?_, lineEnd_le file (s + cs)⟩
        rcases lineEnd_cases file (s + cs) with h | h
        · exact h.symm ▸ hs
        · exact Nat.le_of_lt (Nat.lt_of_le_of_lt (Nat.le_add_right s cs) h.1)
      · exact ih _ (lineEnd_le file (s + cs)) p hp

theorem gcbAux_newlineEnd (file : List ℕ) (cs : ℕ) :
    ∀ i s, ∀ p ∈ gcbAux file cs i s, p.2 ≠ file.length →
      p.1 < p.2 ∧ file.get? (p.2 - 1) = some 10 := by
  intro i
  induction i with
  | zero => intro s p hp; simp [gcbAux] at hp
  | succ m ih =>
      intro s p hp hne
      rw [gcbAux] at hp
      rcases List.mem_cons.mp hp with rfl | hp
      · rcases lineEnd_cases file (s + cs) with h | h
        · exact absurd h hne
        · exact ⟨Nat.lt_of_le_of_lt (Nat.le_add_right s cs) h.1, h.2.2⟩
      · exact ih _ p hp hne

theorem forceLastEnd_spec (L : ℕ) :
    ∀ (bs : List (ℕ × ℕ)) (q : ℕ × ℕ), bs.getLast? = some q →
      forceLastEnd L bs = bs.dropLast ++ [(q.1, L)] := by
  intro bs
  induction bs with
  | nil => intro q hq; simp at hq
  | cons b t ih =>
      intro q hq
      cases t with
      | nil =>
          rw [List.getLast?_singleton] at hq
          obtain ⟨s, e⟩ := b
          cases hq
          rfl
      | cons c t1 =>
          have hlast : (c :: t1).getLast? = some q := by
            rwa [List.getLast?_cons_cons] at hq
          have h1 : forceLastEnd L (b :: c :: t1) = b :: forceLastEnd L (c :: t1) := rfl
          rw [h1, ih q hlast]
          rfl

theorem chainFrom_head {s : ℕ} {p : ℕ × ℕ} {t : List (ℕ × ℕ)}
    (h : ChainFrom s (p :: t)) : p.1 = s := h.1

theorem chainFrom_append_last {s : ℕ} :
    ∀ (bs : List (ℕ × ℕ)), ChainFrom s bs →
      ∀ (q : ℕ × ℕ) (L : ℕ), bs.getLast? = some q →
        ChainFrom s (bs.dropLast ++ [(q.1, L)]) := by
  intro bs
  induction bs generalizing s with
  | nil => intro _ q L hq; simp at hq
  | cons b t ih =>
      intro h q L hq
      cases t with
      | nil =>
          simp only [List.getLast?_singleton, Option.some.injEq] at hq
          subst hq
          exact ⟨h.1, trivial⟩
      | cons c t' =>
          have hlast : (c :: t').getLast? = some q := by
            rwa [List.getLast?_cons_cons] at hq
          refine ⟨h.1, ?_⟩
          exact ih h.2 q L hlast

theorem chainFrom_chain' {s : ℕ} :
    ∀ (bs : List (ℕ × ℕ)), ChainFrom s bs →
      List.Chain' (fun p q => p.2 = q.1) bs := by
  intro bs
  induction bs generalizing s with
  | nil => intro _; exact List.chain'_nil
  | cons b t ih =>
      intro h
      cases t with
      | nil => simp
      | cons c t' =>
          rw [List.chain'_cons]
          exact ⟨(chainFrom_head h.2).symm, ih h.2⟩

theorem chainFrom_start_le {s : ℕ} :
    ∀ (bs : List (ℕ × ℕ)), ChainFrom s bs → (∀ p ∈ bs, p.1 ≤ p.2) →
      ∀ p ∈ bs, s ≤ p.1 := by
  intro bs
  induction bs generalizing s with
  | nil => intro _ _ p hp; simp at hp
  | cons b t ih =>
      intro hc hb p hp
      rcases List.mem_cons.mp hp with rfl | hp
      · exact le_of_eq hc.1.symm
      · have h1 : s ≤ b.1 := le_of_eq hc.1.symm
        have h2 : b.1 ≤ b.2 := (hb b (List.mem_cons_self _ _))
        have h3 := ih hc.2 (fun p hp => hb p (List.mem_cons_of_mem _ hp)) p hp
        omega

theorem chainFrom_pairwise {s : ℕ} :
    ∀ (bs : List (ℕ × ℕ)), ChainFrom s bs → (∀ p ∈ bs, p.1 ≤ p.2) →
      List.Pairwise (fun p q => p.2 ≤ q.1) bs := by
  intro bs
  induction bs generalizing s with
  | nil => intro _ _; exact List.Pairwise.nil
  | cons b t ih =>
      intro hc hb
      refine List.pairwise_cons.mpr ⟨?_, ih hc.2
        (fun p hp => hb p (List.mem_cons_of_mem _ hp))⟩
      intro q hq
      have h1 := chainFrom_start_le t hc.2
        (fun p hp => hb p (List.mem_cons_of_mem _ hp)) q hq
      omega

theorem chainFrom_cover {L : ℕ} :
    ∀ (bs : List (ℕ × ℕ)) (s : ℕ), bs ≠ [] → ChainFrom s bs →
      (∀ q, bs.getLast? = some q → q.2 = L) →
      ∀ x, s ≤ x → x < L → ∃ p ∈ bs, p.1 ≤ x ∧ x < p.2 := by
  intro bs
  induction bs with
  | nil =>
      intro s hne _ _ x hx hxL
      exact absurd rfl hne
  | cons b t ih =>
      intro s _ hc hlast x hx hxL
      by_cases hxe : x < b.2
      · exact ⟨b, List.mem_cons_self _ _, by rw [hc.1]; exact hx, hxe⟩
      · cases t with
        | nil =>
            have := hlast b (by rw [List.getLast?_singleton])
            omega
        | cons c t' =>
            have hlast2 : ∀ q, (c :: t').getLast? = some q → q.2 = L := by
              intro q hq
              exact hlast q (by rwa [List.getLast?_cons_cons])
            obtain ⟨p, hp, h1, h2⟩ :=
              ih b.2 (List.cons_ne_nil _ _) hc.2 hlast2 x (by omega) hxL
            exact ⟨p, List.mem_cons_of_mem _ hp, h1, h2⟩

/-- Core structural facts about the boundary list, for `n ≥ 1`: nonempty,
chained from 0, well-bounded, last end at the file length, and every
internal end just past a newline byte. -/
theorem gcb_core_facts (file : List ℕ) (n : ℕ) (hn : 1 ≤ n) :
    get_chunk_boundaries file n ≠ []
    ∧ ChainFrom 0 (get_chunk_boundaries file n)
    ∧ (∀ p ∈ get_chunk_boundaries file n, p.1 ≤ p.2 ∧ p.2 ≤ file.length)
    ∧ (∀ q, (get_chunk_boundaries file n).getLast? = some q → q.2 = file.length)
    ∧ (∀ p ∈ get_chunk_boundaries file n, p.2 ≠ file.length →
        p.1 < p.2 ∧ file.get? (p.2 - 1) = some 10) := by
  have hcorelen : (gcbAux file (file.length / n) n 0).length = n :=
    gcbAux_length file (file.length / n) n 0
  have hcorene : gcbAux file (file.length / n) n 0 ≠ [] := by
    intro hc
    rw [hc] at hcorelen
    simp at hcorelen
    omega
  obtain ⟨q, hq⟩ : ∃ q, (gcbAux file (file.length / n) n 0).getLast? = some q := by
    cases hl : (gcbAux file (file.length / n) n 0).getLast? with
    | none => exact absurd (List.getLast?_eq_none_iff.mp hl) hcorene
    | some q => exact ⟨q, rfl⟩
  have hqmem : q ∈ gcbAux file (file.length / n) n 0 := by
    obtain ⟨hne, heq⟩ := List.mem_getLast?_eq_getLast hq
    rw [heq]
    exact List.getLast_mem hne
  have hspec : get_chunk_boundaries file n =
      (gcbAux file (file.length / n) n 0).dropLast ++ [(q.1, file.length)] := by
    rw [get_chunk_boundaries]
    exact forceLastEnd_spec file.length _ q hq
  have hchain : ChainFrom 0 (get_chunk_boundaries file n) := by
    rw [hspec]
    exact chainFrom_append_last _ (gcbAux_chainFrom file (file.length / n) n 0)
      q file.length hq
  have hboundsCore : ∀ p ∈ gcbAux file (file.length / n) n 0,
      p.1 ≤ p.2 ∧ p.2 ≤ file.length :=
    gcbAux_bounds file (file.length / n) n 0 (Nat.zero_le _)
  have hbounds : ∀ p ∈ get_chunk_boundaries file n,
      p.1 ≤ p.2 ∧ p.2 ≤ file.length := by
    intro p hp
    rw [hspec] at hp
    rcases List.mem_append.mp hp with hp | hp
    · exact hboundsCore p ((List.dropLast_prefix _).subset hp)
    · rcases List.mem_singleton.mp hp with rfl
      exact ⟨le_trans (hboundsCore q hqmem).1 (hboundsCore q hqmem).2, le_refl _⟩
  have hA : get_chunk_boundaries file n ≠ [] := by
    rw [hspec]
    simp
  have hD : ∀ p, (get_chunk_boundaries file n).getLast? = some p →
      p.2 = file.length := by
    intro p hp
    rw [hspec, List.getLast?_concat] at hp
    cases hp
    rfl
  refine ⟨hA, hchain, hbounds, hD, ?_⟩
  intro p hp hne
  rw [hspec] at hp
  rcases List.mem_append.mp hp with hp | hp
  · exact gcbAux_newlineEnd file (file.length / n) n 0 p
      ((List.dropLast_prefix _).subset hp) hne
  · rcases List.mem_singleton.mp hp with rfl
    exact absurd rfl hne

/-- C1: for every file and chunk count `n ≥ 1`, the ranges returned by
`get_chunk_boundaries` are nonempty, start at byte 0, are contiguous (each
range's end is the next range's start), end at the file length, are
well-formed (`start ≤ end ≤ L`) and pairwise disjoint in order, their union
is exactly `[0, L)`, and every range end other than `L` sits immediately
after a newline byte of the file. -/
theorem claim_C1 (file : List ℕ) (n : ℕ) (hn : 1 ≤ n) :
    get_chunk_boundaries file n ≠ []
    ∧ (∀ p, (get_chunk_boundaries file n).head? = some p → p.1 = 0)
    ∧ List.Chain' (fun p q => p.2 = q.1) (get_chunk_boundaries file n)
    ∧ (∀ p, (get_chunk_boundaries file n).getLast? = some p → p.2 = file.length)
    ∧ (∀ p ∈ get_chunk_boundaries file n, p.1 ≤ p.2 ∧ p.2 ≤ file.length)
    ∧ List.Pairwise (fun p q => p.2 ≤ q.1) (get_chunk_boundaries file n)
    ∧ (∀ x, x < file.length ↔
        ∃ p ∈ get_chunk_boundaries file n, p.1 ≤ x ∧ x < p.2)
    ∧ (∀ p ∈ get_chunk_boundaries file n, p.2 ≠ file.length →
        1 ≤ p.2 ∧ file.get? (p.2 - 1) = some 10) := by
  obtain ⟨hA, hchain, hbounds, hD, hH⟩ := gcb_core_facts file n hn
  refine ⟨hA, ?_, chainFrom_chain' _ hchain, hD, hbounds,
    chainFrom_pairwise _ hchain (fun p hp => (hbounds p hp).1), ?_, ?_⟩
  · intro p hp
    cases hbs : get_chunk_boundaries file n with
    | nil => exact absurd hbs hA
    | cons b t =>
        rw [hbs] at hp
        cases hp
        have hc2 := hchain
        rw [hbs] at hc2
        exact hc2.1
  · intro x
    constructor
    · intro hx
      exact chainFrom_cover _ 0 hA hchain hD x (Nat.zero_le x) hx
    · rintro ⟨p, hp, h1, h2⟩
      exact lt_of_lt_of_le h2 (hbounds p hp).2
  · intro p hp hne
    obtain ⟨h1, h2⟩ := hH p hp hne
    exact ⟨by omega, h2⟩

theorem claim_C1_witness :
    (get_chunk_boundaries (asciiBytes "ab\ncd\nef") 2 ≠ []
    ∧ (∀ p, (get_chunk_boundaries (asciiBytes "ab\ncd\nef") 2).head? = some p →
        p.1 = 0)
    ∧ List.Chain' (fun p q => p.2 = q.1)
        (get_chunk_boundaries (asciiBytes "ab\ncd\nef") 2)
    ∧ (∀ p, (get_chunk_boundaries (asciiBytes "ab\ncd\nef") 2).getLast? = some p →
        p.2 = (asciiBytes "ab\ncd\nef").length)
    ∧ (∀ p ∈ get_chunk_boundaries (asciiBytes "ab\ncd\nef") 2,
        p.1 ≤ p.2 ∧ p.2 ≤ (asciiBytes "ab\ncd\nef").length)
    ∧ List.Pairwise (fun p q => p.2 ≤ q.1)
        (get_chunk_boundaries (asciiBytes "ab\ncd\nef") 2)
    ∧ (∀ x, x < (asciiBytes "ab\ncd\nef").length ↔
        ∃ p ∈ get_chunk_boundaries (asciiBytes "ab\ncd\nef") 2, p.1 ≤ x ∧ x < p.2)
    ∧ (∀ p ∈ get_chunk_boundaries (asciiBytes "ab\ncd\nef") 2,
        p.2 ≠ (asciiBytes "ab\ncd\nef").length →
        1 ≤ p.2 ∧ (asciiBytes "ab\ncd\nef").get? (p.2 - 1) = some 10)) :=
  claim_C1 (asciiBytes "ab\ncd\nef") 2 (by decide)

theorem splitSep_ne_nil {α : Type} [DecidableEq α] (sep : α) :
    ∀ l : List α, splitSep sep l ≠ [] := by
  intro l
  cases l with
  | nil => simp [splitSep]
  | cons a as =>
      rw [splitSep]
      by_cases h : a = sep
      · simp [h]
      · rw [if_neg h]
        cases hs : splitSep sep as with
        | nil => simp
        | cons x xs => simp

/-- Splitting around an explicit separator occurrence splits the pieces. -/
theorem splitSep_append_sep {α : Type} [DecidableEq α] (sep : α) :
    ∀ w v : List α,
      splitSep sep (w ++ sep :: v) = splitSep sep w ++ splitSep sep v := by
  intro w v
  induction w with
  | nil =>
      show splitSep sep (sep :: v) = [[]] ++ splitSep sep v
      rw [splitSep, if_pos rfl]
      rfl
  | cons a w1 ih =>
      by_cases h : a = sep
      · show splitSep sep (a :: (w1 ++ sep :: v)) = splitSep sep (a :: w1) ++ _
        simp only [splitSep, if_pos h]
        rw [ih]
        rfl
      · show splitSep sep (a :: (w1 ++ sep :: v)) = splitSep sep (a :: w1) ++ _
        simp only [splitSep, if_neg h]
        rw [ih]
        cases hs : splitSep sep w1 with
        | nil => exact absurd hs (splitSep_ne_nil sep w1)
        | cons x xs => rfl

/-- For a predicate that rejects the empty line, pieces of a text ending in
the separator contribute the same records whether or not the trailing empty
piece is present. -/
theorem filterMap_splitSep_append {α : Type} (g : List ℕ → Option α)
    (hg : g [] = none) (w v : List ℕ) :
    (splitSep 10 ((w ++ [10]) ++ v)).filterMap g =
      (splitSep 10 (w ++ [10])).filterMap g ++ (splitSep 10 v).filterMap g := by
  have h1 : (w ++ [10]) ++ v = w ++ 10 :: v := by simp
  rw [h1, splitSep_append_sep, splitSep_append_sep]
  rw [List.filterMap_append, List.filterMap_append]
  rw [show (splitSep 10 ([] : List ℕ)).filterMap g = [] by
    rw [show splitSep 10 ([] : List ℕ) = [[]] from rfl]
    simp [hg]]
  rw [List.append_nil]

/-- Degenerate tail of the boundary list: chunks chained from the end of the
file are all empty and contribute no record. -/
theorem recon_degenerate (file : List ℕ) {α : Type} (g : List ℕ → Option α)
    (hg : g [] = none) :
    ∀ t : List (ℕ × ℕ), ChainFrom file.length t →
      (∀ p ∈ t, p.1 ≤ p.2 ∧ p.2 ≤ file.length) →
      ((t.map (fun b => splitSep 10 ((file.drop b.1).take (b.2 - b.1)))).flatten).filterMap g
        = [] := by
  intro t
  induction t with
  | nil => intro _ _; rfl
  | cons p t ih =>
      intro hc hb
      have hp1 : p.1 = file.length := hc.1
      have hp2 : p.2 = file.length := by
        have := hb p (List.mem_cons_self _ _)
        omega
      rw [List.map_cons, List.flatten_cons, List.filterMap_append]
      rw [show (file.drop p.1).take (p.2 - p.1) = [] by
        rw [hp1, List.drop_eq_nil_of_le (le_refl _)]
        simp]
      rw [show splitSep 10 ([] : List ℕ) = [[]] from rfl]
      rw [show ([[]] : List (List ℕ)).filterMap g = [] by simp [hg]]
      rw [ih (by rw [← hp2]; exact hc.2)
        (fun q hq => hb q (List.mem_cons_of_mem _ hq))]
      rfl

/-- Record reconstruction: splitting each line-aligned chunk separately and
splitting the whole file yield the same sequence of records, because every
internal chunk boundary sits just after a newline byte and the extra empty
pieces produce no record. -/
theorem recon (file : List ℕ) {α : Type} (g : List ℕ → Option α)
    (hg : g [] = none) :
    ∀ (bs : List (ℕ × ℕ)) (s : ℕ), bs ≠ [] → ChainFrom s bs →
      (∀ p ∈ bs, p.1 ≤ p.2 ∧ p.2 ≤ file.length) →
      (∀ p ∈ bs, p.2 ≠ file.length → p.1 < p.2 ∧ file.get? (p.2 - 1) = some 10) →
      (∀ q, bs.getLast? = some q → q.2 = file.length) →
      ((bs.map (fun b => splitSep 10 ((file.drop b.1).take (b.2 - b.1)))).flatten).filterMap g
        = (splitSep 10 (file.drop s)).filterMap g := by
  intro bs
  induction bs with
  | nil => intro s hne; exact absurd rfl hne
  | cons b t ih =>
      intro s _ hc hb hnl hlast
      have hb1 : b.1 = s := hc.1
      have hbb := hb b (List.mem_cons_self _ _)
      have hsL : s ≤ file.length := by omega
      by_cases hbL : b.2 = file.length
      · -- this chunk reaches the end of the file; the rest is degenerate
        have hslice : (file.drop b.1).take (b.2 - b.1) = file.drop s := by
          rw [hb1, hbL]
          have : (file.drop s).length = file.length - s := List.length_drop s file
          rw [show file.length - s = (file.drop s).length from this.symm]
          exact List.take_length _
        rw [List.map_cons, List.flatten_cons, List.filterMap_append, hslice]
        rw [recon_degenerate file g hg t (by rw [← hbL]; exact hc.2)
          (fun q hq => hb q (List.mem_cons_of_mem _ hq))]
        rw [List.append_nil]
      · -- internal boundary: the chunk ends right after a newline byte
        obtain ⟨hlt, hbyte⟩ := hnl b (List.mem_cons_self _ _) hbL
        have htne : t ≠ [] := by
          intro ht
          subst ht
          exact hbL (hlast b (by rw [List.getLast?_singleton]))
        -- the chunk is nonempty and its last byte is the newline
        have hlen : ((file.drop b.1).take (b.2 - b.1)).length = b.2 - b.1 := by
          rw [List.length_take, List.length_drop]
          omega
        have hlast10 : ((file.drop b.1).take (b.2 - b.1)).getLast? = some 10 := by
          rw [List.getLast?_eq_get?, hlen]
          rw [List.get?_take (by omega : b.2 - b.1 - 1 < b.2 - b.1)]
          rw [List.get?_drop]
          rw [show b.1 + (b.2 - b.1 - 1) = b.2 - 1 by omega]
          exact hbyte
        obtain ⟨w, hw⟩ : ∃ w, (file.drop b.1).take (b.2 - b.1) = w ++ [10] :=
          ⟨((file.drop b.1).take (b.2 - b.1)).dropLast,
            (List.dropLast_append_getLast? 10 hlast10).symm⟩
        have hsplit : file.drop s = (file.drop s).take (b.2 - s) ++ file.drop b.2 := by
          have h1 : (file.drop s).drop (b.2 - s) = file.drop b.2 := by
            rw [List.drop_drop]
            rw [show s + (b.2 - s) = b.2 by omega]
          rw [← h1, List.take_append_drop]
        rw [List.map_cons, List.flatten_cons, List.filterMap_append]
        have hrest : ((t.map (fun b => splitSep 10
            ((file.drop b.1).take (b.2 - b.1)))).flatten).filterMap g =
            (splitSep 10 (file.drop b.2)).filterMap g := by
          refine ih b.2 htne hc.2
            (fun q hq => hb q (List.mem_cons_of_mem _ hq))
            (fun q hq => hnl q (List.mem_cons_of_mem _ hq)) ?_
          intro q hq
          refine hlast q ?_
          cases t with
          | nil => exact absurd rfl htne
          | cons c t1 => rwa [List.getLast?_cons_cons]
        rw [hrest]
        have hs2 : file.drop s = (w ++ [10]) ++ file.drop b.2 := by
          rw [← hw, hb1]
          exact hsplit
        rw [hs2, filterMap_splitSep_append g hg, hw]

/-- The keys stored by `process_subchunk` are exactly the keys of the lines
that parse. -/
theorem psc_keys (lines : List (List Char)) (q : String) :
    (lookupKey (process_subchunk lines) q).isSome = true ↔
      q ∈ (lines.filterMap parseLine).map Prod.fst := by
  induction lines with
  | nil => simp [process_subchunk, lookupKey]
  | cons l ls ih =>
      have hfold : lookupKey (process_subchunk (l :: ls)) q =
          mergeOpt (lookupKey (psStep [] l) q)
            (lookupKey (process_subchunk ls) q) := by
        show lookupKey (List.foldl psStep (psStep [] l) ls) q = _
        exact lookupKey_foldl_psStep ls (psStep [] l) q
      rw [hfold]
      cases hp : parseLine l with
      | none =>
          rw [show psStep [] l = [] by simp only [psStep, hp]]
          rw [show List.filterMap parseLine (l :: ls) = List.filterMap parseLine ls by
            simp [List.filterMap_cons, hp]]
          exact ih
      | some kv =>
          obtain ⟨k, v⟩ := kv
          rw [show psStep [] l = [(k, ⟨v, v, v, 1⟩)] by
            simp only [psStep, hp]
            rfl]
          rw [show List.filterMap parseLine (l :: ls) =
              (k, v) :: List.filterMap parseLine ls by
            simp [List.filterMap_cons, hp]]
          rw [List.map_cons]
          by_cases hk : k = q
          · subst hk
            constructor
            · intro _
              exact List.mem_cons_self _ _
            · intro _
              rw [show lookupKey [(k, (⟨v, v, v, 1⟩ : Agg))] k =
                  some ⟨v, v, v, 1⟩ from by simp [lookupKey]]
              cases lookupKey (process_subchunk ls) k <;> rfl
          · rw [show lookupKey [(k, (⟨v, v, v, 1⟩ : Agg))] q = none from by
              simp [lookupKey, hk]]
            rw [show mergeOpt none (lookupKey (process_subchunk ls) q) =
              lookupKey (process_subchunk ls) q from rfl]
            rw [ih]
            have hqk : ¬q = k := fun h => hk h.symm
            simp [List.mem_cons, hqk]

/-- Merging per-chunk tables looks up like processing the concatenation of
all decoded chunk lines. -/
theorem lookupKey_foldl_merge_pfc (file : List ℕ) (num_threads : ℕ) :
    ∀ (bs : List (ℕ × ℕ)) (t0 : Table) (q : String),
      lookupKey ((bs.map (fun b =>
          process_file_chunk file b.1 b.2 num_threads)).foldl merge_stats t0) q =
        mergeOpt (lookupKey t0 q)
          (lookupKey (process_subchunk ((bs.map (fun b =>
            (splitSep 10 ((file.drop b.1).take (b.2 - b.1))).filterMap
              utf8Decode)).flatten)) q) := by
  intro bs
  induction bs with
  | nil =>
      intro t0 q
      simp [process_subchunk, lookupKey, mergeOpt_none_right]
  | cons b rest ih =>
      intro t0 q
      rw [List.map_cons, List.foldl_cons, ih]
      have hnd : NodupKeys (process_file_chunk file b.1 b.2 num_threads) :=
        nodupKeys_process_chunk_lines _ num_threads
      rw [lookupKey_merge_stats t0 _ hnd]
      have hpfc : lookupKey (process_file_chunk file b.1 b.2 num_threads) q =
          lookupKey (process_subchunk ((splitSep 10
            ((file.drop b.1).take (b.2 - b.1))).filterMap utf8Decode)) q :=
        lookupKey_process_chunk_lines _ num_threads q
      rw [hpfc, List.map_cons, List.flatten_cons,
        lookupKey_process_subchunk_append, mergeOpt_assoc]

theorem lookupKey_mergedTable (file : List ℕ) (num_processes num_threads : ℕ)
    (q : String) :
    lookupKey (mergedTable file num_processes num_threads) q =
      lookupKey (process_subchunk (((get_chunk_boundaries file num_processes).map
        (fun b => (splitSep 10 ((file.drop b.1).take (b.2 - b.1))).filterMap
          utf8Decode)).flatten)) q := by
  rw [mergedTable, lookupKey_foldl_merge_pfc]
  rfl

theorem nodupKeys_mergedTable (file : List ℕ) (num_processes num_threads : ℕ) :
    NodupKeys (mergedTable file num_processes num_threads) :=
  nodupKeys_foldl_merge_stats nodupKeys_nil _

/-- The merged table stores exactly the keys of the file's valid records. -/
theorem mergedTable_keys (file : List ℕ) (num_processes num_threads : ℕ)
    (hp : 1 ≤ num_processes) (q : String) :
    (lookupKey (mergedTable file num_processes num_threads) q).isSome = true ↔
      q ∈ validKeys file := by
  obtain ⟨hne, hchain, hbounds, hlast, hnl⟩ :=
    gcb_core_facts file num_processes hp
  rw [lookupKey_mergedTable, psc_keys]
  have hrec : (((get_chunk_boundaries file num_processes).map
      (fun b => (splitSep 10 ((file.drop b.1).take (b.2 - b.1))).filterMap
        utf8Decode)).flatten).filterMap parseLine = fileRecords file := by
    rw [List.filterMap_flatten, List.map_map]
    rw [show (List.filterMap parseLine ∘ fun b : ℕ × ℕ =>
        (splitSep 10 ((file.drop b.1).take (b.2 - b.1))).filterMap utf8Decode) =
        fun b : ℕ × ℕ => (splitSep 10 ((file.drop b.1).take (b.2 - b.1))).filterMap
          (fun bs => (utf8Decode bs).bind parseLine) from
      funext (fun b => List.filterMap_filterMap _ _ _)]
    rw [show (fun b : ℕ × ℕ =>
        (splitSep 10 ((file.drop b.1).take (b.2 - b.1))).filterMap
          (fun bs => (utf8Decode bs).bind parseLine)) =
        (List.filterMap (fun bs => (utf8Decode bs).bind parseLine)) ∘
          (fun b : ℕ × ℕ => splitSep 10 ((file.drop b.1).take (b.2 - b.1))) from rfl]
    rw [← List.map_map, ← List.filterMap_flatten]
    rw [recon file (fun bs => (utf8Decode bs).bind parseLine) rfl
      (get_chunk_boundaries file num_processes) 0 hne hchain hbounds hnl hlast]
    rw [List.drop_zero]
    rfl
  rw [hrec]
  rfl

theorem toString_digit_len : ∀ m : ℕ, m < 10 → (toString m).length = 1 := by
  decide

theorem fmtFloat1_frac (q : ℚ) :
    ∃ s : String, fmtFloat1 q = s ++ "." ++ toString ((⌈q * 10⌉).natAbs % 10) ∧
      (toString ((⌈q * 10⌉).natAbs % 10)).length = 1 := by
  refine ⟨(if q < 0 then "-" else "") ++ toString ((⌈q * 10⌉).natAbs / 10),
    rfl, ?_⟩
  exact toString_digit_len _ (Nat.mod_lt _ (by norm_num))

/-- C6: the emitted output is one rendered line per key of the final merged
table, listed in strictly ascending string (code-point) order; the keys are
exactly those appearing in at least one valid record of the input file; each
line is `key=min/mean/max` with a trailing newline, the three values being
the rounded aggregates; and every rendered value carries exactly one digit
after the decimal point. -/
theorem claim_C6 (file : List ℕ) (num_processes num_threads : ℕ)
    (hp : 1 ≤ num_processes) :
    outputLines file num_processes num_threads =
      (sortedKeys (mergedTable file num_processes num_threads)).map
        (rowFor (mergedTable file num_processes num_threads))
    ∧ List.Pairwise (· < ·)
        (sortedKeys (mergedTable file num_processes num_threads))
    ∧ (∀ k, k ∈ sortedKeys (mergedTable file num_processes num_threads) ↔
        k ∈ validKeys file)
    ∧ (∀ k ∈ sortedKeys (mergedTable file num_processes num_threads),
        ∃ a, lookupKey (mergedTable file num_processes num_threads) k = some a ∧
          rowFor (mergedTable file num_processes num_threads) k =
            k ++ "=" ++ fmtFloat1 (round_up a.min) ++ "/" ++
              fmtFloat1 (round_up (a.sum / (a.count : ℚ))) ++ "/" ++
              fmtFloat1 (round_up a.max) ++ "\n")
    ∧ (∀ q : ℚ, ∃ s : String,
        fmtFloat1 q = s ++ "." ++ toString ((⌈q * 10⌉).natAbs % 10) ∧
          (toString ((⌈q * 10⌉).natAbs % 10)).length = 1) := by
  have hN : NodupKeys (mergedTable file num_processes num_threads) :=
    nodupKeys_mergedTable file num_processes num_threads
  have hsorted : (sortedKeys (mergedTable file num_processes num_threads)).Sorted
      (· ≤ ·) :=
    List.sorted_insertionSort _ _
  have hperm : List.Perm (sortedKeys (mergedTable file num_processes num_threads))
      (keysOf (mergedTable file num_processes num_threads)) :=
    List.perm_insertionSort _ _
  have hnodup : (sortedKeys (mergedTable file num_processes num_threads)).Nodup :=
    hperm.nodup_iff.mpr hN
  have hmem : ∀ k, k ∈ sortedKeys (mergedTable file num_processes num_threads) ↔
      k ∈ keysOf (mergedTable file num_processes num_threads) :=
    fun _ => hperm.mem_iff
  refine ⟨rfl, hsorted.lt_of_le hnodup, ?_, ?_, fun q => fmtFloat1_frac q⟩
  · intro k
    rw [hmem k, ← containsKey_iff]
    exact mergedTable_keys file num_processes num_threads hp k
  · intro k hk
    have h1 : (lookupKey (mergedTable file num_processes num_threads) k).isSome
        = true :=
      (containsKey_iff _ _).mpr ((hmem k).mp hk)
    cases ha : lookupKey (mergedTable file num_processes num_threads) k with
    | none => rw [ha] at h1; simp at h1
    | some a =>
        refine ⟨a, rfl, ?_⟩
        rw [rowFor, ha]
        rfl

theorem claim_C6_witness :
    (outputLines (asciiBytes "B;2.0\nA;1.0\n") 2 1 =
      (sortedKeys (mergedTable (asciiBytes "B;2.0\nA;1.0\n") 2 1)).map
        (rowFor (mergedTable (asciiBytes "B;2.0\nA;1.0\n") 2 1))
    ∧ List.Pairwise (· < ·)
        (sortedKeys (mergedTable (asciiBytes "B;2.0\nA;1.0\n") 2 1))
    ∧ (∀ k, k ∈ sortedKeys (mergedTable (asciiBytes "B;2.0\nA;1.0\n") 2 1) ↔
        k ∈ validKeys (asciiBytes "B;2.0\nA;1.0\n"))
    ∧ (∀ k ∈ sortedKeys (mergedTable (asciiBytes "B;2.0\nA;1.0\n") 2 1),
        ∃ a, lookupKey (mergedTable (asciiBytes "B;2.0\nA;1.0\n") 2 1) k = some a ∧
          rowFor (mergedTable (asciiBytes "B;2.0\nA;1.0\n") 2 1) k =
            k ++ "=" ++ fmtFloat1 (round_up a.min) ++ "/" ++
              fmtFloat1 (round_up (a.sum / (a.count : ℚ))) ++ "/" ++
              fmtFloat1 (round_up a.max) ++ "\n")
    ∧ (∀ q : ℚ, ∃ s : String,
        fmtFloat1 q = s ++ "." ++ toString ((⌈q * 10⌉).natAbs % 10) ∧
          (toString ((⌈q * 10⌉).natAbs % 10)).length = 1)) :=
  claim_C6 (asciiBytes "B;2.0\nA;1.0\n") 2 1 (by decide)

theorem claim_C4_witness :
    (process_subchunk ([String.toList "Oslo;1.5"] ++
          String.toList "NoDelimiterHere" :: []) =
        process_subchunk ([String.toList "Oslo;1.5"] ++ []))
    ∧ (([[79]] ++ [255] :: []).filterMap utf8Decode =
        ([[79]] ++ []).filterMap utf8Decode) :=
  ⟨claim_C4.1 [String.toList "Oslo;1.5"] [] (String.toList "NoDelimiterHere")
      (by decide),
    claim_C4.2.1 [[79]] [] [255] (by decide)⟩

end Segfault
